import Mathlib

/-!
Verification development for the HTML slimming engine of `rust-html-helpers`
(`src/slimmer.rs`).  The recursive tree pruner, its two predicates, the
attribute filter and the line compactor are embedded as executable Lean
functions; the claims of the specification are then proved or refuted
against this embedding.

The HTML parser and serializer are external collaborators of the engine
(the spec treats them as unspecified); the embedding therefore works on the
abstract node tree that sits between them.
-/

namespace Slim

-- ## Constants (src/slimmer.rs, region Constants)

/-- Tags to remove explicitly, regardless of content (unless within head). -/
def TAGS_TO_REMOVE : List String := ["script", "link", "style", "svg", "base"]

/-- Tags that should be removed if they become effectively empty; applies only
outside the head element. -/
def REMOVABLE_EMPTY_TAGS : List String :=
  ["div", "span", "p", "i", "b", "em", "strong", "section", "article", "header",
   "footer", "nav", "aside"]

/-- Keywords checked within the property attribute of meta tags. -/
def META_PROPERTY_KEYWORDS : List String := ["title", "url", "image", "description"]

/-- Attribute names allowed on meta tags within the head. -/
def ALLOWED_META_ATTRS : List String := ["property", "content"]

/-- Attribute names allowed on elements outside the head. -/
def ALLOWED_BODY_ATTRS : List String := ["class", "aria-label", "href", "title", "id"]

-- ## String primitives (Rust str methods, over lists of characters)

/-- Characters with the Unicode White_Space property, as tested by Rust's
char::is_whitespace (used by str::trim). -/
def isRustWhitespace (c : Char) : Bool :=
  c.toNat ∈ [0x09, 0x0A, 0x0B, 0x0C, 0x0D, 0x20, 0x85, 0xA0, 0x1680,
    0x2000, 0x2001, 0x2002, 0x2003, 0x2004, 0x2005, 0x2006, 0x2007, 0x2008,
    0x2009, 0x200A, 0x2028, 0x2029, 0x202F, 0x205F, 0x3000]

/-- Rust str::trim: remove leading and trailing whitespace characters. -/
def trimChars (l : List Char) : List Char :=
  ((l.dropWhile isRustWhitespace).reverse.dropWhile isRustWhitespace).reverse

/-- Character-wise lowercasing, modelling str::to_lowercase (faithful on the
ASCII range, which is all the keyword matching ever inspects). -/
def lowerChars (l : List Char) : List Char := l.map Char.toLower

/-- Rust str::contains with a string pattern: substring search. -/
def containsSub (hay pat : List Char) : Bool :=
  if pat.isPrefixOf hay then true
  else
    match hay with
    | [] => false
    | _ :: t => containsSub t pat

/-- Rust str::split_inclusive with separator newline: splits into pieces, each
piece ending with the newline that terminated it, the last piece possibly
without one; the empty string yields no pieces. -/
def splitInclusiveNL : List Char → List (List Char)
  | [] => []
  | c :: cs =>
    if c = '\n' then [c] :: splitInclusiveNL cs
    else
      match splitInclusiveNL cs with
      | [] => [[c]]
      | p :: ps => (c :: p) :: ps

/-- Strips one trailing carriage return, if present. -/
def stripTrailingCR (l : List Char) : List Char :=
  if l.getLast? = some '\r' then l.dropLast else l

/-- Maps a split-inclusive piece to its line content, as the adapter inside
Rust's str::lines does: strip the trailing newline, and only when a newline
was stripped, also strip one trailing carriage return. -/
def stripLineEnding (l : List Char) : List Char :=
  if l.getLast? = some '\n' then stripTrailingCR l.dropLast else l

/-- Rust str::lines over a list of characters. -/
def linesOf (l : List Char) : List (List Char) :=
  (splitInclusiveNL l).map stripLineEnding

/-- Joining a list of lines with a single newline separator
(Rust slice join with separator newline). -/
def joinNL : List (List Char) → List Char
  | [] => []
  | [l] => l
  | l :: ls => l ++ '\n' :: joinNL ls

/-- Translation of remove_empty_lines (src/slimmer.rs line 86): keep the lines
whose trimmed content is nonempty and join them with a single newline.  The
source wraps the result in Ok unconditionally, so the Result layer is dropped
here. -/
def removeEmptyLinesChars (content : List Char) : List Char :=
  joinNL ((linesOf content).filter (fun line => !(trimChars line).isEmpty))

/-- String-level wrapper of remove_empty_lines. -/
def remove_empty_lines (content : String) : String :=
  String.mk (removeEmptyLinesChars content.data)

-- ## Data model (rcdom nodes, as used by slimmer.rs)

/-- Attribute of an element: local name and value.  The source only ever
inspects the local name of html5ever attributes, so namespaces are elided. -/
structure Attr where
  name : String
  value : String
deriving DecidableEq

/-- Node of the rcdom tree.  The children and attribute lists live in RefCell
cells in the source; the booleans childrenBusy and attrsBusy model the runtime
borrow state of those cells (true when some borrow guard is live).  Every
borrow guard taken by the source is statement-scoped, so the embedding of each
statement checks the relevant flag and leaves the state unchanged. -/
inductive Node where
  | document (childrenBusy : Bool) (children : List Node)
  | doctype
  | element (tag : String) (attrs : List Attr) (childrenBusy attrsBusy : Bool)
      (children : List Node)
  | text (contents : String)
  | comment (contents : String)
  | pi (target contents : String)

/-- Child list of a node (empty for leaf kinds, whose rcdom children vector is
always empty). -/
def childrenOf : Node → List Node
  | .document _ cs => cs
  | .element _ _ _ _ cs => cs
  | _ => []

/-- Error type of the crate (src/error.rs); only the Custom variant is
reachable from the slimmer. -/
inductive Error where
  | custom (msg : String)
deriving DecidableEq

-- ## Predicates of the engine

/-- Translation of should_keep_meta (src/slimmer.rs line 214): an element
qualifies iff some attribute named "property" has a lowercased value containing
one of META_PROPERTY_KEYWORDS; any non-element never qualifies. -/
def should_keep_meta (n : Node) : Bool :=
  match n with
  | .element _ attrs _ _ _ =>
    attrs.any (fun attr =>
      decide (attr.name = "property") &&
        META_PROPERTY_KEYWORDS.any (fun keyword =>
          containsSub (lowerChars attr.value.data) keyword.data))
  | _ => false

/-- Child test of is_effectively_empty: a whitespace-only text node or a
comment counts as empty content; any other node kind does not. -/
def emptyish (child : Node) : Bool :=
  match child with
  | .text contents => (trimChars contents.data).isEmpty
  | .comment _ => true
  | _ => false

/-- Translation of is_effectively_empty (src/slimmer.rs line 204): all current
children are whitespace-only text nodes or comments. -/
def is_effectively_empty (n : Node) : Bool :=
  (childrenOf n).all emptyish

/-- Translation of filter_attributes (src/slimmer.rs line 233).  The
try_borrow_mut on the attribute cell fails exactly when a borrow guard is live
on it; non-element nodes are left untouched. -/
def filter_attributes (n : Node) (is_in_head_context : Bool) : Except Error Node :=
  match n with
  | .element tag attrs cBusy aBusy children =>
    if aBusy then
      .error (.custom ("Attrs already borrowed mutably for <" ++ tag ++ ">"))
    else
      let attrs' :=
        if is_in_head_context then
          if tag = "meta" then
            attrs.filter (fun attr => decide (attr.name ∈ ALLOWED_META_ATTRS))
          else if tag = "title" then []
          else []
        else
          attrs.filter (fun attr => decide (attr.name ∈ ALLOWED_BODY_ATTRS))
      .ok (.element tag attrs' cBusy aBusy children)
  | other => .ok other

-- ## The tree pruner

/-- Initial pre-order keep decision for an element
(src/slimmer.rs lines 104-122): inside head only title and qualifying meta
are kept; outside head everything but TAGS_TO_REMOVE is kept.  Only consulted
for element nodes. -/
def initial_keep (n : Node) (is_in_head_context : Bool) : Bool :=
  match n with
  | .element tag _ _ _ _ =>
    if is_in_head_context then
      if tag = "title" then true
      else if tag = "meta" then should_keep_meta n
      else false
    else
      if tag ∈ TAGS_TO_REMOVE then false else true
  | _ => false

/-- Children surviving a processing pass: the source collects the indices of
children whose recursive result was false and removes them in reverse order,
which keeps exactly the processed children whose keep flag is true, in
order. -/
def keptOf (results : List (Node × Bool)) : List Node :=
  (results.filter (fun r => r.2)).map (fun r => r.1)

mutual

/-- Translation of process_node_recursive (src/slimmer.rs line 93).  Returns
the node after in-place processing together with the keep decision; the
Except layer carries the internal-failure errors of the source (its
try_borrow_mut guards), which fire exactly when the corresponding borrow flag
is live.  Removal of the children whose recursive result is false is the net
effect of the source's indices_to_remove bookkeeping (indices are collected in
order from the cloned list and removed in reverse, which keeps exactly the
children whose result was true, in order). -/
def processNode : Node → Bool → Except Error (Node × Bool)
  | .element tag attrs cBusy aBusy children, is_in_head_context =>
    let current_node_is_head : Bool := decide (tag = "head")
    let child_context_is_in_head : Bool := is_in_head_context || current_node_is_head
    let keep0 : Bool :=
      initial_keep (.element tag attrs cBusy aBusy children) is_in_head_context
    if keep0 then
      match processList children child_context_is_in_head with
      | .error e => .error e
      | .ok results =>
        let anyRemoved := results.any (fun r => !r.2)
        if anyRemoved && cBusy then
          .error (.custom "Node children already borrowed mutably")
        else
          match filter_attributes (.element tag attrs cBusy aBusy (keptOf results))
              child_context_is_in_head with
          | .error e => .error e
          | .ok n' =>
            let keep1 : Bool :=
              if (current_node_is_head && (childrenOf n').isEmpty)
                  || (!child_context_is_in_head
                      && decide (tag ∈ REMOVABLE_EMPTY_TAGS)
                      && is_effectively_empty n') then
                false
              else keep0
            .ok (n', keep1)
    else
      .ok (.element tag attrs cBusy aBusy children, false)
  | .comment contents, _ => .ok (.comment contents, false)
  | .text contents, _ => .ok (.text contents, !(trimChars contents.data).isEmpty)
  | .document cBusy children, _ =>
    match processList children false with
    | .error e => .error e
    | .ok results =>
      let anyRemoved := results.any (fun r => !r.2)
      if anyRemoved && cBusy then
        .error (.custom "Doc children already borrowed mutably")
      else
        .ok (.document cBusy (keptOf results), true)
  | .doctype, _ => .ok (.doctype, true)
  | .pi target contents, _ => .ok (.pi target contents, false)

/-- Processes a list of children in document order, propagating the first
error, pairing each processed child with its keep decision (the source's
enumeration loop with the question-mark operator on each recursive call). -/
def processList : List Node → Bool → Except Error (List (Node × Bool))
  | [], _ => .ok []
  | n :: rest, ctx =>
    match processNode n ctx with
    | .error e => .error e
    | .ok r =>
      match processList rest ctx with
      | .error e => .error e
      | .ok rs => .ok (r :: rs)

end

/-- Tree-level slim (src/slimmer.rs line 59): the source parses the input,
runs process_node_recursive on the document node with context false, and
serializes that same document node, ignoring the document's keep flag.
Parsing and serialization are external collaborators; this is the tree
transformation performed between them. -/
def slimTree (doc : Node) : Except Error Node :=
  match processNode doc false with
  | .error e => .error e
  | .ok (doc', _) => .ok doc'

-- ## Observation predicates used by the claims

mutual

/-- Does any node of the tree (the root or any descendant) satisfy p? -/
def containsNode (p : Node → Bool) : Node → Bool
  | .document b cs => p (.document b cs) || containsNodeList p cs
  | .element t a cb ab cs => p (.element t a cb ab cs) || containsNodeList p cs
  | n => p n

/-- List version of containsNode. -/
def containsNodeList (p : Node → Bool) : List Node → Bool
  | [] => false
  | c :: cs => containsNode p c || containsNodeList p cs

end

/-- Is the node an element whose tag is in TAGS_TO_REMOVE? -/
def isBannedElem : Node → Bool
  | .element t _ _ _ _ => decide (t ∈ TAGS_TO_REMOVE)
  | _ => false

/-- Is the node a comment? -/
def isCommentNode : Node → Bool
  | .comment _ => true
  | _ => false

/-- Is the node a processing instruction? -/
def isPINode : Node → Bool
  | .pi _ _ => true
  | _ => false

/-- Is the node an element? -/
def isElemNode : Node → Bool
  | .element _ _ _ _ _ => true
  | _ => false

/-- Is the node an element with the given tag? -/
def isTagged (tag : String) : Node → Bool
  | .element t _ _ _ _ => decide (t = tag)
  | _ => false

/-- Is the node a text node whose content is not exclusively whitespace? -/
def nonWsTextNode : Node → Bool
  | .text s => !(trimChars s.data).isEmpty
  | _ => false

/-- Is the node a doctype? -/
def isDoctypeNode : Node → Bool
  | .doctype => true
  | _ => false

/-- Is the node a document node? -/
def isDocumentNode : Node → Bool
  | .document _ _ => true
  | _ => false

/-- Child kinds of a head element as an HTML parser actually produces them:
elements, comments, processing instructions, or whitespace-only text.
Non-whitespace text, doctype and nested document children never occur under
head in parser output. -/
def headSafeChild : Node → Bool
  | .element _ _ _ _ _ => true
  | .comment _ => true
  | .pi _ _ => true
  | .text s => (trimChars s.data).isEmpty
  | _ => false

/-- Attribute allow-list per context and tag, read off the branches of
filter_attributes: property and content for meta inside head, nothing for any
other tag inside head, the body allow-list outside head. -/
def allowedName (is_in_head_context : Bool) (tag name : String) : Bool :=
  if is_in_head_context then
    if tag = "meta" then decide (name ∈ ALLOWED_META_ATTRS) else false
  else
    decide (name ∈ ALLOWED_BODY_ATTRS)

mutual

/-- Every element of the tree carries only attributes allowed for its
position: an element's own attributes are judged in the context its attributes
were filtered with, namely the context of its children (inside head for the
head element itself). -/
def attrsConform : Node → Bool → Bool
  | .document _ cs, _ => attrsConformList cs false
  | .element tag attrs _ _ cs, ctx =>
    let cctx := ctx || decide (tag = "head")
    attrs.all (fun attr => allowedName cctx tag attr.name) && attrsConformList cs cctx
  | _, _ => true

/-- List version of attrsConform. -/
def attrsConformList : List Node → Bool → Bool
  | [], _ => true
  | c :: cs, ctx => attrsConform c ctx && attrsConformList cs ctx

end

/-- Does the node itself hold a live borrow guard on one of its cells? -/
def isBusyNode : Node → Bool
  | .document cb _ => cb
  | .element _ _ cb ab _ => cb || ab
  | _ => false

end Slim

namespace Slim

-- ## Infrastructure: induction over the node tree

mutual

theorem nodeRecAux {P : Node → Prop}
    (hdoc : ∀ b cs, (∀ c ∈ cs, P c) → P (.document b cs))
    (hdt : P .doctype)
    (helem : ∀ t a cb ab cs, (∀ c ∈ cs, P c) → P (.element t a cb ab cs))
    (htext : ∀ s, P (.text s))
    (hcom : ∀ s, P (.comment s))
    (hpi : ∀ t s, P (.pi t s)) : ∀ n, P n
  | .document b cs => hdoc b cs (nodeListRecAux hdoc hdt helem htext hcom hpi cs)
  | .doctype => hdt
  | .element t a cb ab cs =>
      helem t a cb ab cs (nodeListRecAux hdoc hdt helem htext hcom hpi cs)
  | .text s => htext s
  | .comment s => hcom s
  | .pi t s => hpi t s

theorem nodeListRecAux {P : Node → Prop}
    (hdoc : ∀ b cs, (∀ c ∈ cs, P c) → P (.document b cs))
    (hdt : P .doctype)
    (helem : ∀ t a cb ab cs, (∀ c ∈ cs, P c) → P (.element t a cb ab cs))
    (htext : ∀ s, P (.text s))
    (hcom : ∀ s, P (.comment s))
    (hpi : ∀ t s, P (.pi t s)) : ∀ cs : List Node, ∀ c ∈ cs, P c
  | [] => by intro c hc; exact absurd hc (List.not_mem_nil c)
  | c :: cs => by
      intro d hd
      rcases List.mem_cons.mp hd with rfl | hmem
      · exact nodeRecAux hdoc hdt helem htext hcom hpi d
      · exact nodeListRecAux hdoc hdt helem htext hcom hpi cs d hmem

end

-- ## Infrastructure: processList

theorem processList_forall2 :
    ∀ (cs : List Node) (ctx : Bool) (rs : List (Node × Bool)),
      processList cs ctx = .ok rs →
      List.Forall₂ (fun c r => processNode c ctx = .ok r) cs rs := by
  intro cs ctx
  induction cs with
  | nil =>
    intro rs h
    simp only [processList] at h
    injection h with h
    subst h
    exact List.Forall₂.nil
  | cons c cs ih =>
    intro rs h
    simp only [processList] at h
    cases hpn : processNode c ctx with
    | error e => rw [hpn] at h; exact absurd h (by simp)
    | ok r =>
      rw [hpn] at h
      cases hpl : processList cs ctx with
      | error e => rw [hpl] at h; exact absurd h (by simp)
      | ok rs' =>
        rw [hpl] at h
        injection h with h
        subst h
        exact List.Forall₂.cons hpn (ih rs' hpl)

theorem processList_ok_of_children :
    ∀ (cs : List Node) (ctx : Bool),
      (∀ c ∈ cs, ∃ r, processNode c ctx = .ok r) →
      ∃ rs, processList cs ctx = .ok rs := by
  intro cs ctx
  induction cs with
  | nil => exact fun _ => ⟨[], rfl⟩
  | cons c cs ih =>
    intro h
    obtain ⟨r, hr⟩ := h c (List.mem_cons_self c cs)
    obtain ⟨rs, hrs⟩ := ih (fun d hd => h d (List.mem_cons_of_mem c hd))
    exact ⟨r :: rs, by simp only [processList, hr, hrs]⟩

theorem forall2_mem_right {R : Node → (Node × Bool) → Prop} :
    ∀ {cs : List Node} {rs : List (Node × Bool)}, List.Forall₂ R cs rs →
      ∀ r ∈ rs, ∃ c ∈ cs, R c r := by
  intro cs rs h
  induction h with
  | nil => intro r hr; exact absurd hr (List.not_mem_nil r)
  | cons hR hall ih =>
    intro r hr
    rcases List.mem_cons.mp hr with rfl | hmem
    · exact ⟨_, List.mem_cons_self _ _, hR⟩
    · obtain ⟨c, hc, hcr⟩ := ih r hmem
      exact ⟨c, List.mem_cons_of_mem _ hc, hcr⟩

theorem mem_keptOf {c : Node} {rs : List (Node × Bool)} :
    c ∈ keptOf rs ↔ (c, true) ∈ rs := by
  simp only [keptOf, List.mem_map, List.mem_filter]
  constructor
  · rintro ⟨⟨c', k⟩, ⟨hmem, hk⟩, rfl⟩
    simp only at hk
    simp only [hk] at hmem ⊢
    exact hmem
  · intro h
    exact ⟨(c, true), ⟨h, rfl⟩, rfl⟩

-- ## Infrastructure: filter_attributes and the element branch structure

theorem filter_attributes_elem (t : String) (a : List Attr) (cb : Bool) (cs : List Node)
    (ctx : Bool) :
    filter_attributes (.element t a cb false cs) ctx
      = .ok (.element t (a.filter (fun x => allowedName ctx t x.name)) cb false cs) := by
  cases ctx with
  | false => simp [filter_attributes, allowedName]
  | true =>
    by_cases hm : t = "meta"
    · subst hm; simp [filter_attributes, allowedName]
    · by_cases ht : t = "title"
      · subst ht; simp [filter_attributes, allowedName]
      · simp [filter_attributes, allowedName, hm, ht]


-- ## Infrastructure: structure of processNode results

theorem processNode_text_eq (s : String) (ctx : Bool) :
    processNode (.text s) ctx = .ok (.text s, !(trimChars s.data).isEmpty) := rfl

theorem processNode_comment_eq (s : String) (ctx : Bool) :
    processNode (.comment s) ctx = .ok (.comment s, false) := rfl

theorem processNode_doctype_eq (ctx : Bool) :
    processNode .doctype ctx = .ok (.doctype, true) := rfl

theorem processNode_pi_eq (t s : String) (ctx : Bool) :
    processNode (.pi t s) ctx = .ok (.pi t s, false) := rfl

theorem processNode_element_not_kept (t : String) (a : List Attr) (cb ab : Bool)
    (cs : List Node) (ctx : Bool)
    (hk : initial_keep (.element t a cb ab cs) ctx = false) :
    processNode (.element t a cb ab cs) ctx = .ok (.element t a cb ab cs, false) := by
  simp [processNode, hk]

theorem processNode_element_kept (t : String) (a : List Attr) (cb ab : Bool)
    (cs : List Node) (ctx : Bool) (n' : Node) (k : Bool)
    (hk : initial_keep (.element t a cb ab cs) ctx = true)
    (h : processNode (.element t a cb ab cs) ctx = .ok (n', k)) :
    ab = false ∧
    ∃ results, processList cs (ctx || decide (t = "head")) = .ok results ∧
      n' = .element t (a.filter (fun x => allowedName (ctx || decide (t = "head")) t x.name))
             cb false (keptOf results) ∧
      (k = true ↔
        ((decide (t = "head") && (keptOf results).isEmpty)
          || (!(ctx || decide (t = "head")) && decide (t ∈ REMOVABLE_EMPTY_TAGS)
              && is_effectively_empty n')) = false) := by
  simp only [processNode, hk, if_true] at h
  cases hpl : processList cs (ctx || decide (t = "head")) with
  | error e => rw [hpl] at h; exact absurd h (by simp)
  | ok results =>
    rw [hpl] at h
    simp only [] at h
    by_cases hrem : ((results.any fun r => !r.2) && cb) = true
    · rw [if_pos hrem] at h; exact absurd h (by simp)
    · rw [if_neg hrem] at h
      cases hab : ab with
      | true =>
        rw [hab] at h
        simp [filter_attributes] at h
      | false =>
        rw [hab] at h
        rw [filter_attributes_elem] at h
        simp only [] at h
        simp only [childrenOf] at h
        simp only [Except.ok.injEq, Prod.mk.injEq] at h
        obtain ⟨hn, hk2⟩ := h
        subst hn
        refine ⟨rfl, results, rfl, rfl, ?_⟩
        rw [← hk2]
        by_cases hcond : ((decide (t = "head") && (keptOf results).isEmpty)
            || (!(ctx || decide (t = "head")) && decide (t ∈ REMOVABLE_EMPTY_TAGS)
                && is_effectively_empty (Node.element t
                  (a.filter (fun x => allowedName (ctx || decide (t = "head")) t x.name))
                  cb false (keptOf results)))) = true
        · rw [if_pos hcond, hcond]
          simp
        · rw [if_neg hcond]
          simp only [Bool.not_eq_true] at hcond
          rw [hcond]
          simp

theorem processNode_document (b : Bool) (cs : List Node) (ctx : Bool) (n' : Node) (k : Bool)
    (h : processNode (.document b cs) ctx = .ok (n', k)) :
    k = true ∧ ∃ results, processList cs false = .ok results ∧
      n' = .document b (keptOf results) := by
  simp only [processNode] at h
  cases hpl : processList cs false with
  | error e => rw [hpl] at h; exact absurd h (by simp)
  | ok results =>
    rw [hpl] at h
    simp only [] at h
    by_cases hrem : ((results.any fun r => !r.2) && b) = true
    · rw [if_pos hrem] at h; exact absurd h (by simp)
    · rw [if_neg hrem] at h
      simp only [Except.ok.injEq, Prod.mk.injEq] at h
      obtain ⟨hn, hk⟩ := h
      exact ⟨hk.symm, results, rfl, hn.symm⟩

-- ## Infrastructure: initial_keep characterizations

theorem initial_keep_outside (t : String) (a : List Attr) (cb ab : Bool) (cs : List Node) :
    initial_keep (.element t a cb ab cs) false = !decide (t ∈ TAGS_TO_REMOVE) := by
  by_cases h : t ∈ TAGS_TO_REMOVE <;> simp [initial_keep, h]

theorem initial_keep_inside (t : String) (a : List Attr) (cb ab : Bool) (cs : List Node) :
    initial_keep (.element t a cb ab cs) true = true ↔
      (t = "title" ∨ (t = "meta" ∧
        should_keep_meta (.element t a cb ab cs) = true)) := by
  by_cases ht : t = "title"
  · subst ht; simp [initial_keep]
  · by_cases hm : t = "meta"
    · subst hm; simp [initial_keep, ht]
    · simp [initial_keep, ht, hm]


-- ## Infrastructure: containment and conformance

theorem containsNodeList_eq_false (p : Node → Bool) (l : List Node) :
    containsNodeList p l = false ↔ ∀ c ∈ l, containsNode p c = false := by
  induction l with
  | nil => simp [containsNodeList]
  | cons c cs ih => simp [containsNodeList, ih]

theorem attrsConformList_eq_true (l : List Node) (ctx : Bool) :
    attrsConformList l ctx = true ↔ ∀ c ∈ l, attrsConform c ctx = true := by
  induction l with
  | nil => simp [attrsConformList]
  | cons c cs ih => simp [attrsConformList, ih]

-- ## Infrastructure: kinds of kept roots

theorem kept_root_kinds (n : Node) (ctx : Bool) (n' : Node)
    (h : processNode n ctx = .ok (n', true)) :
    isBannedElem n' = false ∧ isCommentNode n' = false ∧ isPINode n' = false := by
  cases n with
  | document b cs =>
    obtain ⟨-, results, -, hn⟩ := processNode_document b cs ctx n' true h
    subst hn
    exact ⟨rfl, rfl, rfl⟩
  | doctype =>
    rw [processNode_doctype_eq] at h
    simp only [Except.ok.injEq, Prod.mk.injEq] at h
    obtain ⟨hn, -⟩ := h
    subst hn
    exact ⟨rfl, rfl, rfl⟩
  | text s =>
    rw [processNode_text_eq] at h
    simp only [Except.ok.injEq, Prod.mk.injEq] at h
    obtain ⟨hn, -⟩ := h
    subst hn
    exact ⟨rfl, rfl, rfl⟩
  | comment s => rw [processNode_comment_eq] at h; simp at h
  | pi t s => rw [processNode_pi_eq] at h; simp at h
  | element t a cb ab cs =>
    cases hk : initial_keep (.element t a cb ab cs) ctx with
    | false => rw [processNode_element_not_kept t a cb ab cs ctx hk] at h; simp at h
    | true =>
      obtain ⟨hab, results, hpl, hn, -⟩ :=
        processNode_element_kept t a cb ab cs ctx n' true hk h
      subst hn
      refine ⟨?_, rfl, rfl⟩
      simp only [isBannedElem]
      cases ctx with
      | false =>
        rw [initial_keep_outside] at hk
        simpa using hk
      | true =>
        rcases (initial_keep_inside t a cb ab cs).mp hk with ht | ⟨hm, -⟩
        · subst ht; decide
        · subst hm; decide

-- ## Infrastructure: deep preservation over kept outputs

theorem containsNode_false_of_kept (p : Node → Bool)
    (hp : ∀ n ctx n', processNode n ctx = .ok (n', true) → p n' = false) :
    ∀ n ctx n', processNode n ctx = .ok (n', true) → containsNode p n' = false := by
  intro n
  induction n using nodeRecAux with
  | hdoc b cs ih =>
    intro ctx n' h
    obtain ⟨-, results, hpl, hn⟩ := processNode_document b cs ctx n' true h
    subst hn
    simp only [containsNode]
    refine Bool.or_eq_false_iff.mpr ⟨hp _ ctx _ h, ?_⟩
    rw [containsNodeList_eq_false]
    intro c hc
    obtain ⟨c0, hc0, hR⟩ := forall2_mem_right
      (processList_forall2 cs false results hpl) (c, true) (mem_keptOf.mp hc)
    exact ih c0 hc0 false c hR
  | hdt =>
    intro ctx n' h
    have hroot := hp _ ctx _ h
    rw [processNode_doctype_eq] at h
    simp only [Except.ok.injEq, Prod.mk.injEq] at h
    obtain ⟨hn, -⟩ := h
    subst hn
    simpa only [containsNode] using hroot
  | helem t a cb ab cs ih =>
    intro ctx n' h
    cases hk : initial_keep (.element t a cb ab cs) ctx with
    | false => rw [processNode_element_not_kept t a cb ab cs ctx hk] at h; simp at h
    | true =>
      obtain ⟨hab, results, hpl, hn, -⟩ :=
        processNode_element_kept t a cb ab cs ctx n' true hk h
      subst hn
      simp only [containsNode]
      refine Bool.or_eq_false_iff.mpr ⟨hp _ ctx _ h, ?_⟩
      rw [containsNodeList_eq_false]
      intro c hc
      obtain ⟨c0, hc0, hR⟩ := forall2_mem_right
        (processList_forall2 cs (ctx || decide (t = "head")) results hpl)
        (c, true) (mem_keptOf.mp hc)
      exact ih c0 hc0 (ctx || decide (t = "head")) c hR
  | htext s =>
    intro ctx n' h
    have hroot := hp _ ctx _ h
    rw [processNode_text_eq] at h
    simp only [Except.ok.injEq, Prod.mk.injEq] at h
    obtain ⟨hn, -⟩ := h
    subst hn
    simpa only [containsNode] using hroot
  | hcom s =>
    intro ctx n' h
    rw [processNode_comment_eq] at h
    simp at h
  | hpi t s =>
    intro ctx n' h
    rw [processNode_pi_eq] at h
    simp at h

theorem attrsConform_of_kept :
    ∀ n ctx n', processNode n ctx = .ok (n', true) → attrsConform n' ctx = true := by
  intro n
  induction n using nodeRecAux with
  | hdoc b cs ih =>
    intro ctx n' h
    obtain ⟨-, results, hpl, hn⟩ := processNode_document b cs ctx n' true h
    subst hn
    simp only [attrsConform]
    rw [attrsConformList_eq_true]
    intro c hc
    obtain ⟨c0, hc0, hR⟩ := forall2_mem_right
      (processList_forall2 cs false results hpl) (c, true) (mem_keptOf.mp hc)
    exact ih c0 hc0 false c hR
  | hdt =>
    intro ctx n' h
    rw [processNode_doctype_eq] at h
    simp only [Except.ok.injEq, Prod.mk.injEq] at h
    obtain ⟨hn, -⟩ := h
    subst hn
    simp [attrsConform]
  | helem t a cb ab cs ih =>
    intro ctx n' h
    cases hk : initial_keep (.element t a cb ab cs) ctx with
    | false => rw [processNode_element_not_kept t a cb ab cs ctx hk] at h; simp at h
    | true =>
      obtain ⟨hab, results, hpl, hn, -⟩ :=
        processNode_element_kept t a cb ab cs ctx n' true hk h
      subst hn
      simp only [attrsConform]
      refine Bool.and_eq_true_iff.mpr ⟨?_, ?_⟩
      · rw [List.all_eq_true]
        intro x hx
        exact (List.mem_filter.mp hx).2
      · rw [attrsConformList_eq_true]
        intro c hc
        obtain ⟨c0, hc0, hR⟩ := forall2_mem_right
          (processList_forall2 cs (ctx || decide (t = "head")) results hpl)
          (c, true) (mem_keptOf.mp hc)
        exact ih c0 hc0 (ctx || decide (t = "head")) c hR
  | htext s =>
    intro ctx n' h
    rw [processNode_text_eq] at h
    simp only [Except.ok.injEq, Prod.mk.injEq] at h
    obtain ⟨hn, -⟩ := h
    subst hn
    simp [attrsConform]
  | hcom s =>
    intro ctx n' h
    rw [processNode_comment_eq] at h
    simp at h
  | hpi t s =>
    intro ctx n' h
    rw [processNode_pi_eq] at h
    simp at h


-- ## Substring search agrees with List.IsInfix

theorem containsSub_correct (pat : List Char) :
    ∀ hay : List Char, containsSub hay pat = true ↔ pat <:+: hay := by
  have hpfx : ∀ l r : List Char, l.isPrefixOf r = true ↔ l <+: r :=
    fun _ _ => List.isPrefixOf_iff_prefix
  have hpi : ∀ l r : List Char, l <+: r → l <:+: r :=
    fun _ _ h => List.IsPrefix.isInfix h
  have hinfnil : ∀ l : List Char, l <:+: [] ↔ l = [] :=
    fun _ => List.infix_nil
  have hinfcons : ∀ (l r : List Char) (a : Char), l <:+: a :: r ↔ l <+: a :: r ∨ l <:+: r :=
    fun _ _ _ => List.infix_cons_iff
  intro hay
  induction hay with
  | nil =>
    simp only [containsSub]
    by_cases hp : pat.isPrefixOf [] = true
    · simp only [hp, if_true, true_iff]
      exact hpi _ _ ((hpfx _ _).mp hp)
    · simp only [hp, Bool.false_eq_true, if_false]
      constructor
      · intro habs; exact absurd habs (by simp)
      · intro hinf
        have hpat : pat = [] := (hinfnil pat).mp hinf
        subst hpat
        exact absurd ((hpfx _ _).mpr (List.prefix_refl _)) hp
  | cons c t ih =>
    simp only [containsSub]
    rw [hinfcons pat t c]
    by_cases hp : pat.isPrefixOf (c :: t) = true
    · simp only [hp, if_true, true_iff]
      exact Or.inl ((hpfx _ _).mp hp)
    · simp only [hp, Bool.false_eq_true, if_false]
      rw [ih]
      constructor
      · exact Or.inr
      · intro hor
        rcases hor with hpre | hinf
        · exact absurd ((hpfx _ _).mpr hpre) hp
        · exact hinf

/-- C7: should_keep_meta returns true if and only if the element has an
attribute named "property" whose lowercased value contains (as a substring,
not an exact match) at least one of the keywords title, url, image,
description. -/
theorem c7_should_keep_meta_spec (t : String) (a : List Attr) (cb ab : Bool) (cs : List Node) :
    should_keep_meta (.element t a cb ab cs) = true ↔
      ∃ attr ∈ a, attr.name = "property" ∧
        ∃ kw ∈ META_PROPERTY_KEYWORDS, kw.data <:+: lowerChars attr.value.data := by
  simp only [should_keep_meta, List.any_eq_true, Bool.and_eq_true_iff, decide_eq_true_eq,
    containsSub_correct]

/-- C7 witness: a meta element with property og:subtitle qualifies, because
the lowercased value contains the keyword title as a substring. -/
theorem c7_witness :
    ∃ attr ∈ [Attr.mk "property" "og:subtitle"], attr.name = "property" ∧
      ∃ kw ∈ META_PROPERTY_KEYWORDS, kw.data <:+: lowerChars attr.value.data :=
  (c7_should_keep_meta_spec "meta" [Attr.mk "property" "og:subtitle"] false false []).mp
    (by decide)

/-- C8: remove_empty_lines splits the text into lines, discards exactly the
lines whose trimmed content is empty, and joins the surviving lines, in their
original order and with their content unaltered (they form a sublist of the
original line list), with a single newline. -/
theorem c8_line_compaction (s : String) :
    remove_empty_lines s
        = String.mk (joinNL ((linesOf s.data).filter (fun l => !(trimChars l).isEmpty)))
      ∧ List.Sublist ((linesOf s.data).filter (fun l => !(trimChars l).isEmpty)) (linesOf s.data)
      ∧ (∀ l ∈ (linesOf s.data).filter (fun l => !(trimChars l).isEmpty),
          (trimChars l).isEmpty = false)
      ∧ (∀ l ∈ linesOf s.data, (trimChars l).isEmpty = false →
          l ∈ (linesOf s.data).filter (fun l => !(trimChars l).isEmpty)) := by
  refine ⟨rfl, List.filter_sublist _, ?_, ?_⟩
  · intro l hl
    have h2 := (List.mem_filter.mp hl).2
    simpa using h2
  · intro l hl hne
    exact List.mem_filter.mpr ⟨hl, by simp [hne]⟩

/-- C8 witness: concrete compaction, discarding an all-whitespace line. -/
theorem c8_witness : remove_empty_lines "a\n \nb" = "a\nb" :=
  (c8_line_compaction "a\n \nb").1.trans (by decide)

/-- C2: an element that fails the pre-order eligibility check (a tag of
TAGS_TO_REMOVE outside head, or inside head anything that is neither title nor
a qualifying meta) is returned with keep false and its node, attributes and
entire subtree unchanged: processNode does not descend into it, and the parent
then drops the whole subtree. -/
theorem c2_ineligible_discarded_wholesale (t : String) (a : List Attr) (cb ab : Bool)
    (cs : List Node) (ctx : Bool)
    (h : (ctx = false ∧ t ∈ TAGS_TO_REMOVE) ∨
         (ctx = true ∧ t ≠ "title" ∧
           ¬(t = "meta" ∧ should_keep_meta (.element t a cb ab cs) = true))) :
    processNode (.element t a cb ab cs) ctx = .ok (.element t a cb ab cs, false) := by
  apply processNode_element_not_kept
  rcases h with ⟨hc, hmem⟩ | ⟨hc, hnt, hnm⟩
  · subst hc
    rw [initial_keep_outside]
    simp [hmem]
  · subst hc
    cases hik : initial_keep (.element t a cb ab cs) true with
    | false => rfl
    | true =>
      exfalso
      rcases (initial_keep_inside t a cb ab cs).mp hik with h1 | h2
      · exact hnt h1
      · exact hnm h2

/-- C2 witness: a script element outside head is dropped unexplored, with its
source text still inside the returned (discarded) subtree. -/
theorem c2_witness :
    processNode (.element "script" [] false false [.text "alert(1)"]) false
      = .ok (.element "script" [] false false [.text "alert(1)"], false) :=
  c2_ineligible_discarded_wholesale "script" [] false false [.text "alert(1)"] false
    (Or.inl ⟨rfl, by decide⟩)

-- ## slimTree on documents

theorem slimTree_document (b : Bool) (cs : List Node) (d' : Node)
    (h : slimTree (.document b cs) = .ok d') :
    processNode (.document b cs) false = .ok (d', true) := by
  simp only [slimTree] at h
  cases hpn : processNode (.document b cs) false with
  | error e => rw [hpn] at h; exact absurd h (by simp)
  | ok r =>
    obtain ⟨d'', k⟩ := r
    rw [hpn] at h
    simp only [] at h
    injection h with h
    subst h
    obtain ⟨hk, -⟩ := processNode_document b cs false d'' k hpn
    subst hk
    rfl

/-- C3: the tree slim produces for any document contains no element whose tag
is in TAGS_TO_REMOVE (script, link, style, svg, base), wherever the element
occurred. -/
theorem c3_slim_no_banned_elements (b : Bool) (cs : List Node) (d' : Node)
    (h : slimTree (.document b cs) = .ok d') :
    containsNode isBannedElem d' = false :=
  containsNode_false_of_kept isBannedElem
    (fun n ctx n' hn => (kept_root_kinds n ctx n' hn).1)
    (.document b cs) false d' (slimTree_document b cs d' h)

/-- C3 witness: a document whose script subtree is removed. -/
theorem c3_witness :
    containsNode isBannedElem
      (.document false [.element "html" [] false false []]) = false :=
  c3_slim_no_banned_elements false
    [.element "html" [] false false [.element "script" [] false false [.text "x"]]]
    (.document false [.element "html" [] false false []]) rfl

/-- C4: the tree slim produces for any document contains no comment node and
no processing-instruction node. -/
theorem c4_slim_no_comment_no_pi (b : Bool) (cs : List Node) (d' : Node)
    (h : slimTree (.document b cs) = .ok d') :
    containsNode isCommentNode d' = false ∧ containsNode isPINode d' = false :=
  ⟨containsNode_false_of_kept isCommentNode
      (fun n ctx n' hn => (kept_root_kinds n ctx n' hn).2.1)
      (.document b cs) false d' (slimTree_document b cs d' h),
   containsNode_false_of_kept isPINode
      (fun n ctx n' hn => (kept_root_kinds n ctx n' hn).2.2)
      (.document b cs) false d' (slimTree_document b cs d' h)⟩

/-- C4 witness: comment and processing instruction removed from a paragraph. -/
theorem c4_witness :
    containsNode isCommentNode
        (.document false [.element "p" [] false false [.text "hi"]]) = false
      ∧ containsNode isPINode
        (.document false [.element "p" [] false false [.text "hi"]]) = false :=
  c4_slim_no_comment_no_pi false
    [.element "p" [] false false [.comment "c", .pi "php" "x", .text "hi"]]
    (.document false [.element "p" [] false false [.text "hi"]]) rfl

/-- C5: attribute filtering is exact.  First conjunct: in a slimmed document
no element carries an attribute outside the allow-list for its context
(property and content for meta inside head, nothing for any other element
inside head, class, aria-label, href, title, id outside head).  Remaining
conjuncts: filter_attributes keeps exactly the allow-listed attributes, as a
sublist of the original attribute list, so each survivor keeps its original
name, value, and relative position, and every allow-listed input attribute
survives. -/
theorem c5_attribute_allowlist_exact :
    (∀ (b : Bool) (cs : List Node) (d' : Node),
      slimTree (.document b cs) = .ok d' → attrsConform d' false = true)
    ∧ (∀ (t : String) (a : List Attr) (cb : Bool) (cs : List Node) (ctx : Bool),
        filter_attributes (.element t a cb false cs) ctx
            = .ok (.element t (a.filter (fun x => allowedName ctx t x.name)) cb false cs)
          ∧ List.Sublist (a.filter (fun x => allowedName ctx t x.name)) a
          ∧ (∀ x ∈ a.filter (fun x => allowedName ctx t x.name),
              allowedName ctx t x.name = true ∧ x ∈ a)
          ∧ (∀ x ∈ a, allowedName ctx t x.name = true →
              x ∈ a.filter (fun x => allowedName ctx t x.name))) := by
  constructor
  · intro b cs d' h
    exact attrsConform_of_kept (.document b cs) false d' (slimTree_document b cs d' h)
  · intro t a cb cs ctx
    refine ⟨filter_attributes_elem t a cb cs ctx, List.filter_sublist a, ?_, ?_⟩
    · intro x hx
      obtain ⟨hmem, hp⟩ := List.mem_filter.mp hx
      exact ⟨hp, hmem⟩
    · intro x hx hall
      exact List.mem_filter.mpr ⟨hx, hall⟩

/-- C5 witness: a body element keeps class and loses an unlisted attribute,
and the result conforms to the allow-list. -/
theorem c5_witness :
    attrsConform
      (.document false
        [.element "body" [Attr.mk "class" "c"] false false [.text "hi"]]) false = true :=
  c5_attribute_allowlist_exact.1 false
    [.element "body" [Attr.mk "class" "c", Attr.mk "extra" "e"] false false [.text "hi"]]
    (.document false [.element "body" [Attr.mk "class" "c"] false false [.text "hi"]]) rfl


-- ## C9: borrow-guard error branches are unreachable on unborrowed trees

theorem filter_attributes_ok_of_unborrowed (n : Node) (ctx : Bool)
    (h : containsNode isBusyNode n = false) :
    ∃ m, filter_attributes n ctx = .ok m := by
  cases n with
  | element t a cb ab cs =>
    have hab : ab = false := by
      simp only [containsNode, isBusyNode, Bool.or_eq_false_iff] at h
      exact h.1.2
    subst hab
    exact ⟨_, filter_attributes_elem t a cb cs ctx⟩
  | document b cs => exact ⟨_, rfl⟩
  | doctype => exact ⟨_, rfl⟩
  | text s => exact ⟨_, rfl⟩
  | comment s => exact ⟨_, rfl⟩
  | pi t s => exact ⟨_, rfl⟩

theorem processNode_ok_of_unborrowed :
    ∀ n ctx, containsNode isBusyNode n = false →
      ∃ r, processNode n ctx = .ok r := by
  intro n
  induction n using nodeRecAux with
  | hdoc b cs ih =>
    intro ctx h
    simp only [containsNode, isBusyNode, Bool.or_eq_false_iff] at h
    obtain ⟨hb, hlist⟩ := h
    subst hb
    obtain ⟨results, hpl⟩ := processList_ok_of_children cs false
      (fun c hc => ih c hc false ((containsNodeList_eq_false _ _).mp hlist c hc))
    simp only [processNode, hpl, Bool.and_false, Bool.false_eq_true, if_false]
    exact ⟨_, rfl⟩
  | hdt => intro ctx _; exact ⟨_, processNode_doctype_eq ctx⟩
  | helem t a cb ab cs ih =>
    intro ctx h
    simp only [containsNode, isBusyNode, Bool.or_eq_false_iff] at h
    obtain ⟨⟨hcb, hab⟩, hlist⟩ := h
    subst hcb
    subst hab
    cases hk : initial_keep (.element t a false false cs) ctx with
    | false => exact ⟨_, processNode_element_not_kept t a false false cs ctx hk⟩
    | true =>
      obtain ⟨results, hpl⟩ := processList_ok_of_children cs (ctx || decide (t = "head"))
        (fun c hc => ih c hc _ ((containsNodeList_eq_false _ _).mp hlist c hc))
      simp only [processNode, hk, if_true, hpl, Bool.and_false, Bool.false_eq_true,
        if_false, filter_attributes_elem]
      exact ⟨_, rfl⟩
  | htext s => intro ctx _; exact ⟨_, processNode_text_eq s ctx⟩
  | hcom s => intro ctx _; exact ⟨_, processNode_comment_eq s ctx⟩
  | hpi t s => intro ctx _; exact ⟨_, processNode_pi_eq t s ctx⟩

/-- C9: on any tree with no live borrow guard (which is every tree the parser
hands to the single-threaded traversal), process_node_recursive and
filter_attributes never reach their internal-failure branches: both always
return Ok, so slim can only fail in its external parse, serialization or
encoding steps. -/
theorem c9_internal_failures_unreachable (n : Node) (ctx : Bool)
    (h : containsNode isBusyNode n = false) :
    (∃ r, processNode n ctx = .ok r) ∧ (∃ m, filter_attributes n ctx = .ok m) :=
  ⟨processNode_ok_of_unborrowed n ctx h, filter_attributes_ok_of_unborrowed n ctx h⟩

/-- C9 witness: a concrete unborrowed document processes without error. -/
theorem c9_witness :
    (∃ r, processNode
        (.document false [.element "p" [] false false [.text "hi"]]) false = .ok r)
    ∧ (∃ m, filter_attributes
        (.document false [.element "p" [] false false [.text "hi"]]) false = .ok m) :=
  c9_internal_failures_unreachable
    (.document false [.element "p" [] false false [.text "hi"]]) false (by decide)

-- ## Kind analysis of surviving children

theorem kept_child_source (cs : List Node) (ctx : Bool) (results : List (Node × Bool))
    (hpl : processList cs ctx = .ok results) :
    ∀ c ∈ keptOf results, ∃ c0 ∈ cs, processNode c0 ctx = .ok (c, true) :=
  fun c hc => forall2_mem_right (processList_forall2 cs ctx results hpl)
    (c, true) (mem_keptOf.mp hc)

theorem should_keep_meta_sub (t : String) (a a' : List Attr)
    (cb ab cb' ab' : Bool) (cs cs' : List Node)
    (hsub : ∀ x ∈ a, x.name = "property" → x ∈ a')
    (hskm : should_keep_meta (.element t a cb ab cs) = true) :
    should_keep_meta (.element t a' cb' ab' cs') = true := by
  simp only [should_keep_meta, List.any_eq_true] at hskm ⊢
  obtain ⟨x, hx, hcond⟩ := hskm
  refine ⟨x, ?_, hcond⟩
  have hname : x.name = "property" :=
    of_decide_eq_true (Bool.and_eq_true_iff.mp hcond).1
  exact hsub x hx hname

theorem kept_child_head (cs : List Node) (results : List (Node × Bool))
    (hpl : processList cs true = .ok results)
    (hsafe : ∀ c ∈ cs, headSafeChild c = true) :
    ∀ c ∈ keptOf results,
      isTagged "title" c = true ∨ (isTagged "meta" c = true ∧ should_keep_meta c = true) := by
  intro c hc
  obtain ⟨c0, hc0, hpn⟩ := kept_child_source cs true results hpl c hc
  cases c0 with
  | element t a cb ab cs2 =>
    cases hk : initial_keep (.element t a cb ab cs2) true with
    | false => rw [processNode_element_not_kept t a cb ab cs2 true hk] at hpn; simp at hpn
    | true =>
      obtain ⟨-, results2, -, hn, -⟩ :=
        processNode_element_kept t a cb ab cs2 true c true hk hpn
      subst hn
      rcases (initial_keep_inside t a cb ab cs2).mp hk with ht | ⟨hm, hskm⟩
      · subst ht
        left
        rfl
      · subst hm
        right
        refine ⟨rfl, ?_⟩
        apply should_keep_meta_sub "meta" a _ cb ab cb false cs2 _ _ hskm
        intro x hx hname
        refine List.mem_filter.mpr ⟨hx, ?_⟩
        rw [hname]
        rfl
  | text s =>
    have hws := hsafe (.text s) hc0
    simp only [headSafeChild] at hws
    rw [processNode_text_eq] at hpn
    simp only [Except.ok.injEq, Prod.mk.injEq] at hpn
    rw [hws] at hpn
    simp at hpn
  | comment s => rw [processNode_comment_eq] at hpn; simp at hpn
  | pi t s => rw [processNode_pi_eq] at hpn; simp at hpn
  | doctype => exact absurd (hsafe .doctype hc0) (by simp [headSafeChild])
  | document b cs2 => exact absurd (hsafe _ hc0) (by simp [headSafeChild])

theorem kept_child_elem_or_text (cs : List Node) (ctx : Bool)
    (results : List (Node × Bool))
    (hpl : processList cs ctx = .ok results)
    (hsafe : ∀ c ∈ cs, isDoctypeNode c = false ∧ isDocumentNode c = false) :
    ∀ c ∈ keptOf results, isElemNode c = true ∨ nonWsTextNode c = true := by
  intro c hc
  obtain ⟨c0, hc0, hpn⟩ := kept_child_source cs ctx results hpl c hc
  cases c0 with
  | element t a cb ab cs2 =>
    left
    cases hk : initial_keep (.element t a cb ab cs2) ctx with
    | false => rw [processNode_element_not_kept t a cb ab cs2 ctx hk] at hpn; simp at hpn
    | true =>
      obtain ⟨-, results2, -, hn, -⟩ :=
        processNode_element_kept t a cb ab cs2 ctx c true hk hpn
      subst hn
      rfl
  | text s =>
    right
    rw [processNode_text_eq] at hpn
    simp only [Except.ok.injEq, Prod.mk.injEq] at hpn
    obtain ⟨hc1, hk1⟩ := hpn
    subst hc1
    simpa [nonWsTextNode] using hk1
  | comment s => rw [processNode_comment_eq] at hpn; simp at hpn
  | pi t s => rw [processNode_pi_eq] at hpn; simp at hpn
  | doctype => exact absurd (hsafe .doctype hc0).1 (by simp [isDoctypeNode])
  | document b cs2 => exact absurd (hsafe _ hc0).2 (by simp [isDocumentNode])

theorem emptyish_true_kinds (c : Node) (h : emptyish c = true) :
    isElemNode c = false ∧ nonWsTextNode c = false := by
  cases c with
  | text s =>
    refine ⟨rfl, ?_⟩
    simp only [emptyish] at h
    simp only [nonWsTextNode]
    rw [h]
    rfl
  | comment s => exact ⟨rfl, rfl⟩
  | element t a cb ab cs => simp [emptyish] at h
  | document b cs => simp [emptyish] at h
  | doctype => simp [emptyish] at h
  | pi t s => simp [emptyish] at h


-- ## C1: head retention (corrected)

/-- C1 counterexample: on a document whose head holds a non-whitespace text
node, slim keeps the head although it contains neither a title nor a
qualifying meta, refuting the claimed equivalence. -/
theorem c1_counterexample :
    slimTree (.document false [.element "head" [] false false [.text "x"]])
        = .ok (.document false [.element "head" [] false false [.text "x"]])
      ∧ containsNode (isTagged "head")
          (.document false [.element "head" [] false false [.text "x"]]) = true
      ∧ containsNode (fun n => isTagged "title" n || (isTagged "meta" n && should_keep_meta n))
          (.document false [.element "head" [] false false [.text "x"]]) = false :=
  ⟨rfl, rfl, rfl⟩

/-- C1 amended: a head element processed outside head context is kept
(keep true, hence present in output; keep false means the parent deletes it)
iff after filtering its child list it still contains a title element or a
qualifying meta, provided each original child is an element, comment,
processing instruction, or whitespace-only text, as HTML parsers produce;
a non-whitespace text child (or stray doctype or document child) would also
keep the head alive. -/
theorem c1_head_retention_amended (a : List Attr) (cb ab : Bool) (cs : List Node)
    (n' : Node) (k : Bool)
    (hsafe : ∀ c ∈ cs, headSafeChild c = true)
    (h : processNode (.element "head" a cb ab cs) false = .ok (n', k)) :
    k = true ↔ ∃ c ∈ childrenOf n',
      isTagged "title" c = true ∨ (isTagged "meta" c = true ∧ should_keep_meta c = true) := by
  have hk : initial_keep (.element "head" a cb ab cs) false = true := by
    rw [initial_keep_outside]
    rfl
  obtain ⟨hab, results, hpl, hn, hkiff⟩ :=
    processNode_element_kept "head" a cb ab cs false n' k hk h
  subst hn
  have hctx : (false || decide ("head" = "head")) = true := rfl
  rw [hctx] at hpl
  rw [hkiff]
  simp only [childrenOf]
  have hkinds := kept_child_head cs results hpl hsafe
  constructor
  · intro hcond
    cases hkept : keptOf results with
    | nil =>
      rw [hkept] at hcond
      simp at hcond
    | cons hd tl =>
      refine ⟨hd, List.mem_cons_self hd tl, hkinds hd ?_⟩
      rw [hkept]
      exact List.mem_cons_self hd tl
  · rintro ⟨c, hc, -⟩
    cases hkept : keptOf results with
    | nil => rw [hkept] at hc; exact absurd hc (List.not_mem_nil c)
    | cons hd tl => rfl

/-- C1 witness for the amended statement: a head holding only a title is
kept, and the kept child is that title. -/
theorem c1_witness :
    (true = true ↔ ∃ c ∈ childrenOf
        (Node.element "head" [] false false [.element "title" [] false false []]),
      isTagged "title" c = true ∨ (isTagged "meta" c = true ∧ should_keep_meta c = true)) :=
  c1_head_retention_amended [] false false [.element "title" [] false false []]
    (.element "head" [] false false [.element "title" [] false false []]) true
    (by decide) rfl

-- ## C6: removable-empty pruning (corrected)

/-- C6 counterexample: a div whose only child is a doctype node is kept by
slim although it retains no element child and no non-whitespace text,
refuting the claimed equivalence over arbitrary trees. -/
theorem c6_counterexample :
    slimTree (.document false [.element "div" [] false false [.doctype]])
        = .ok (.document false [.element "div" [] false false [.doctype]])
      ∧ "div" ∈ REMOVABLE_EMPTY_TAGS
      ∧ containsNode (isTagged "div")
          (.document false [.element "div" [] false false [.doctype]]) = true
      ∧ (∀ c ∈ childrenOf (.element "div" ([] : List Attr) false false [Node.doctype]),
          isElemNode c = false ∧ nonWsTextNode c = false) :=
  ⟨rfl, by decide, rfl, by decide⟩

/-- C6 amended: an element of the removable-empty set processed outside head
context is kept iff after pruning it retains at least one element child or
non-whitespace text node, provided no child is a doctype or nested document
node (which HTML parsers never place there); such a stray child would also
keep the element alive. -/
theorem c6_removable_empty_amended (t : String) (a : List Attr) (cb ab : Bool)
    (cs : List Node) (n' : Node) (k : Bool)
    (ht : t ∈ REMOVABLE_EMPTY_TAGS)
    (hsafe : ∀ c ∈ cs, isDoctypeNode c = false ∧ isDocumentNode c = false)
    (h : processNode (.element t a cb ab cs) false = .ok (n', k)) :
    k = true ↔ ∃ c ∈ childrenOf n', isElemNode c = true ∨ nonWsTextNode c = true := by
  have hmem := ht
  simp [REMOVABLE_EMPTY_TAGS] at hmem
  have hnb : decide (t ∈ TAGS_TO_REMOVE) = false := by
    rcases hmem with rfl|rfl|rfl|rfl|rfl|rfl|rfl|rfl|rfl|rfl|rfl|rfl|rfl <;> rfl
  have hnh : decide (t = "head") = false := by
    rcases hmem with rfl|rfl|rfl|rfl|rfl|rfl|rfl|rfl|rfl|rfl|rfl|rfl|rfl <;> rfl
  have hrm : decide (t ∈ REMOVABLE_EMPTY_TAGS) = true := decide_eq_true ht
  have hk : initial_keep (.element t a cb ab cs) false = true := by
    rw [initial_keep_outside, hnb]
    rfl
  obtain ⟨hab, results, hpl, hn, hkiff⟩ :=
    processNode_element_kept t a cb ab cs false n' k hk h
  subst hn
  rw [hnh] at hpl
  simp only [Bool.or_false] at hpl
  simp only [hnh, hrm, Bool.or_false, Bool.false_and, Bool.false_or, Bool.not_false,
    Bool.true_and] at hkiff
  rw [hkiff]
  simp only [childrenOf, is_effectively_empty]
  have hkinds := kept_child_elem_or_text cs false results hpl hsafe
  constructor
  · intro hall
    cases hkept : keptOf results with
    | nil => rw [hkept] at hall; simp at hall
    | cons hd tl =>
      refine ⟨hd, List.mem_cons_self hd tl, hkinds hd ?_⟩
      rw [hkept]
      exact List.mem_cons_self hd tl
  · rintro ⟨c, hc, hcel⟩
    by_contra hne
    have hall : (keptOf results).all emptyish = true := by
      cases hx : (keptOf results).all emptyish with
      | true => rfl
      | false => exact absurd hx hne
    have hp := List.all_eq_true.mp hall c hc
    obtain ⟨h1, h2⟩ := emptyish_true_kinds c hp
    rcases hcel with he | htx
    · rw [he] at h1; exact absurd h1 (by simp)
    · rw [htx] at h2; exact absurd h2 (by simp)

/-- C6 witness for the amended statement: a div with a non-whitespace text
child is kept, the retained child being that text. -/
theorem c6_witness :
    (true = true ↔ ∃ c ∈ childrenOf (Node.element "div" [] false false [.text "hi"]),
      isElemNode c = true ∨ nonWsTextNode c = true) :=
  c6_removable_empty_amended "div" [] false false [.text "hi"]
    (.element "div" [] false false [.text "hi"]) true
    (by decide) (by decide) rfl


-- ## Line structure lemmas for C10

theorem splitInclusiveNL_no_nl (l : List Char) (hnl : '\n' ∉ l) (hne : l ≠ []) :
    splitInclusiveNL l = [l] := by
  induction l with
  | nil => exact absurd rfl hne
  | cons c cs ih =>
    have hc : ¬(c = '\n') := fun h => hnl (h ▸ List.mem_cons_self c cs)
    simp only [splitInclusiveNL, if_neg hc]
    cases cs with
    | nil => rfl
    | cons d ds =>
      rw [ih (fun h => hnl (List.mem_cons_of_mem c h)) (by simp)]

theorem splitInclusiveNL_append_nl (l rest : List Char) (hnl : '\n' ∉ l) :
    splitInclusiveNL (l ++ '\n' :: rest) = (l ++ ['\n']) :: splitInclusiveNL rest := by
  induction l with
  | nil =>
    simp only [List.nil_append, splitInclusiveNL, if_pos rfl, if_true]
  | cons c cs ih =>
    have hc : ¬(c = '\n') := fun h => hnl (h ▸ List.mem_cons_self c cs)
    simp only [List.cons_append, splitInclusiveNL, if_neg hc, List.append_eq]
    rw [ih (fun h => hnl (List.mem_cons_of_mem c h))]

theorem stripLineEnding_concat_nl (l : List Char) :
    stripLineEnding (l ++ ['\n']) = stripTrailingCR l := by
  unfold stripLineEnding
  rw [List.getLast?_concat, List.dropLast_concat, if_pos rfl]

theorem stripLineEnding_no_nl (l : List Char) (hnl : '\n' ∉ l) :
    stripLineEnding l = l := by
  unfold stripLineEnding
  rw [if_neg]
  intro hlast
  have h1 : '\n' ∈ l.getLast? := Option.mem_def.mpr hlast
  obtain ⟨hh, heq⟩ := List.mem_getLast?_eq_getLast h1
  exact hnl (by rw [heq]; exact List.getLast_mem hh)

theorem stripTrailingCR_no_cr (l : List Char) (hcr : '\r' ∉ l) :
    stripTrailingCR l = l := by
  unfold stripTrailingCR
  rw [if_neg]
  intro hlast
  have h1 : '\r' ∈ l.getLast? := Option.mem_def.mpr hlast
  obtain ⟨hh, heq⟩ := List.mem_getLast?_eq_getLast h1
  exact hcr (by rw [heq]; exact List.getLast_mem hh)

theorem linesOf_joinNL (L : List (List Char))
    (hL : ∀ l ∈ L, l ≠ [] ∧ '\n' ∉ l ∧ '\r' ∉ l) :
    linesOf (joinNL L) = L := by
  induction L with
  | nil => rfl
  | cons l L' ih =>
    obtain ⟨hne, hnl, hcr⟩ := hL l (List.mem_cons_self l L')
    cases L' with
    | nil =>
      simp only [joinNL, linesOf]
      rw [splitInclusiveNL_no_nl l hnl hne]
      simp only [List.map_cons, List.map_nil]
      rw [stripLineEnding_no_nl l hnl]
    | cons l2 L'' =>
      have ih2 := ih (fun x hx => hL x (List.mem_cons_of_mem l hx))
      simp only [linesOf] at ih2
      simp only [joinNL, linesOf]
      rw [splitInclusiveNL_append_nl l (joinNL (l2 :: L'')) hnl]
      simp only [List.map_cons]
      rw [stripLineEnding_concat_nl, stripTrailingCR_no_cr l hcr, ih2]

theorem mem_of_mem_splitInclusiveNL :
    ∀ s p : List Char, p ∈ splitInclusiveNL s → ∀ c ∈ p, c ∈ s := by
  intro s
  induction s with
  | nil => intro p hp; simp [splitInclusiveNL] at hp
  | cons c0 cs ih =>
    intro p hp c hc
    by_cases h0 : c0 = '\n'
    · subst h0
      simp only [splitInclusiveNL, if_pos rfl] at hp
      rcases List.mem_cons.mp hp with rfl | hmem
      · obtain rfl := List.mem_singleton.mp hc
        exact List.mem_cons_self _ _
      · exact List.mem_cons_of_mem _ (ih p hmem c hc)
    · simp only [splitInclusiveNL, if_neg h0] at hp
      cases hsp : splitInclusiveNL cs with
      | nil =>
        rw [hsp] at hp
        obtain rfl := List.mem_singleton.mp hp
        obtain rfl := List.mem_singleton.mp hc
        exact List.mem_cons_self _ _
      | cons q qs =>
        rw [hsp] at hp
        rcases List.mem_cons.mp hp with rfl | hmem
        · rcases List.mem_cons.mp hc with rfl | hcq
          · exact List.mem_cons_self _ _
          · exact List.mem_cons_of_mem _
              (ih q (by rw [hsp]; exact List.mem_cons_self q qs) c hcq)
        · exact List.mem_cons_of_mem _
            (ih p (by rw [hsp]; exact List.mem_cons_of_mem q hmem) c hc)

theorem stripTrailingCR_subset (p : List Char) : ∀ c ∈ stripTrailingCR p, c ∈ p := by
  intro c hc
  unfold stripTrailingCR at hc
  by_cases h : p.getLast? = some '\r'
  · rw [if_pos h] at hc
    exact (List.dropLast_sublist p).subset hc
  · rw [if_neg h] at hc
    exact hc

theorem stripLineEnding_subset (p : List Char) : ∀ c ∈ stripLineEnding p, c ∈ p := by
  intro c hc
  unfold stripLineEnding at hc
  by_cases h : p.getLast? = some '\n'
  · rw [if_pos h] at hc
    exact (List.dropLast_sublist p).subset (stripTrailingCR_subset p.dropLast c hc)
  · rw [if_neg h] at hc
    exact hc

theorem mem_of_mem_linesOf (s l : List Char) (hl : l ∈ linesOf s) :
    ∀ c ∈ l, c ∈ s := by
  simp only [linesOf, List.mem_map] at hl
  obtain ⟨p, hp, rfl⟩ := hl
  intro c hc
  exact mem_of_mem_splitInclusiveNL s p hp c (stripLineEnding_subset p c hc)

theorem splitInclusiveNL_structure :
    ∀ s : List Char, ∀ p ∈ splitInclusiveNL s,
      p ≠ [] ∧ ('\n' ∉ p ∨ ∃ q, p = q ++ ['\n'] ∧ '\n' ∉ q) := by
  intro s
  induction s with
  | nil => intro p hp; simp [splitInclusiveNL] at hp
  | cons c0 cs ih =>
    intro p hp
    by_cases h0 : c0 = '\n'
    · subst h0
      simp only [splitInclusiveNL, if_pos rfl] at hp
      rcases List.mem_cons.mp hp with rfl | hmem
      · exact ⟨by simp, Or.inr ⟨[], rfl, by simp⟩⟩
      · exact ih p hmem
    · simp only [splitInclusiveNL, if_neg h0] at hp
      cases hsp : splitInclusiveNL cs with
      | nil =>
        rw [hsp] at hp
        obtain rfl := List.mem_singleton.mp hp
        exact ⟨by simp, Or.inl (fun hmem => h0 (List.mem_singleton.mp hmem).symm)⟩
      | cons q qs =>
        rw [hsp] at hp
        rcases List.mem_cons.mp hp with rfl | hmem
        · obtain ⟨hqne, hq⟩ := ih q (by rw [hsp]; exact List.mem_cons_self q qs)
          refine ⟨by simp, ?_⟩
          rcases hq with hq1 | ⟨r, rfl, hr⟩
          · refine Or.inl (fun hmem2 => ?_)
            rcases List.mem_cons.mp hmem2 with h | h
            · exact h0 h.symm
            · exact hq1 h
          · refine Or.inr ⟨c0 :: r, rfl, fun hmem2 => ?_⟩
            rcases List.mem_cons.mp hmem2 with h | h
            · exact h0 h.symm
            · exact hr h
        · exact ih p (by rw [hsp]; exact List.mem_cons_of_mem q hmem)

theorem no_nl_mem_linesOf (s : List Char) : ∀ l ∈ linesOf s, '\n' ∉ l := by
  intro l hl
  simp only [linesOf, List.mem_map] at hl
  obtain ⟨p, hp, rfl⟩ := hl
  obtain ⟨hne, hstruct⟩ := splitInclusiveNL_structure s p hp
  rcases hstruct with hnl | ⟨q, rfl, hq⟩
  · rw [stripLineEnding_no_nl p hnl]
    exact hnl
  · rw [stripLineEnding_concat_nl]
    intro hmem
    exact hq (stripTrailingCR_subset q '\n' hmem)

theorem ne_nil_of_trim_ne (l : List Char) (h : (trimChars l).isEmpty = false) :
    l ≠ [] := by
  rintro rfl
  exact absurd h (by decide)

theorem joinNL_ne_nil (L : List (List Char)) (hne : L ≠ []) (h : ∀ l ∈ L, l ≠ []) :
    joinNL L ≠ [] := by
  cases L with
  | nil => exact absurd rfl hne
  | cons l L' =>
    cases L' with
    | nil => simpa [joinNL] using h l (List.mem_cons_self l [])
    | cons l2 L'' =>
      simp only [joinNL]
      intro habs
      exact absurd (List.append_eq_nil.mp habs).2 (by simp)

theorem getLast?_joinNL_ne_nl (L : List (List Char))
    (h : ∀ l ∈ L, l ≠ [] ∧ '\n' ∉ l) :
    (joinNL L).getLast? ≠ some '\n' := by
  induction L with
  | nil => simp [joinNL]
  | cons l L' ih =>
    obtain ⟨hne, hnl⟩ := h l (List.mem_cons_self l L')
    cases L' with
    | nil =>
      simp only [joinNL]
      intro hlast
      have h1 : '\n' ∈ l.getLast? := Option.mem_def.mpr hlast
      obtain ⟨hh, heq⟩ := List.mem_getLast?_eq_getLast h1
      exact hnl (by rw [heq]; exact List.getLast_mem hh)
    | cons l2 L'' =>
      have ih2 := ih (fun x hx => h x (List.mem_cons_of_mem l hx))
      have hjoin_ne : joinNL (l2 :: L'') ≠ [] :=
        joinNL_ne_nil _ (by simp) (fun x hx => (h x (List.mem_cons_of_mem l hx)).1)
      simp only [joinNL]
      rw [List.getLast?_append_of_ne_nil l (show ('\n' :: joinNL (l2 :: L'')) ≠ [] by simp)]
      rw [show ('\n' :: joinNL (l2 :: L'')) = ['\n'] ++ joinNL (l2 :: L'') from rfl]
      rw [List.getLast?_append_of_ne_nil ['\n'] hjoin_ne]
      exact ih2

theorem linesOf_joinNL_mem (L : List (List Char))
    (hL : ∀ l ∈ L, l ≠ [] ∧ '\n' ∉ l) :
    ∀ l ∈ linesOf (joinNL L), ∃ l0 ∈ L, l = l0 ∨ l = stripTrailingCR l0 := by
  induction L with
  | nil => intro l hl; simp [linesOf, joinNL, splitInclusiveNL] at hl
  | cons l0 L' ih =>
    obtain ⟨hne, hnl⟩ := hL l0 (List.mem_cons_self l0 L')
    cases L' with
    | nil =>
      intro l hl
      simp only [joinNL, linesOf] at hl
      rw [splitInclusiveNL_no_nl l0 hnl hne] at hl
      simp only [List.map_cons, List.map_nil] at hl
      rw [stripLineEnding_no_nl l0 hnl] at hl
      have hleq := List.mem_singleton.mp hl
      exact ⟨l0, List.mem_cons_self l0 [], Or.inl hleq⟩
    | cons l1 L'' =>
      intro l hl
      have ih2 := ih (fun x hx => hL x (List.mem_cons_of_mem l0 hx))
      simp only [joinNL, linesOf] at hl
      rw [splitInclusiveNL_append_nl l0 (joinNL (l1 :: L'')) hnl] at hl
      simp only [List.map_cons] at hl
      rw [stripLineEnding_concat_nl] at hl
      rcases List.mem_cons.mp hl with rfl | hmem
      · exact ⟨l0, List.mem_cons_self l0 _, Or.inr rfl⟩
      · obtain ⟨x, hx, hcase⟩ := ih2 l (by simp only [linesOf]; exact hmem)
        exact ⟨x, List.mem_cons_of_mem l0 hx, hcase⟩

theorem trimChars_isEmpty_iff (l : List Char) :
    (trimChars l).isEmpty = true ↔ ∀ c ∈ l, isRustWhitespace c = true := by
  simp only [trimChars, List.isEmpty_iff, List.reverse_eq_nil_iff,
    List.dropWhile_eq_nil_iff, List.mem_reverse]
  constructor
  · intro h c hc
    have hsplit : l.takeWhile isRustWhitespace ++ l.dropWhile isRustWhitespace = l :=
      List.takeWhile_append_dropWhile isRustWhitespace l
    rw [← hsplit] at hc
    rcases List.mem_append.mp hc with htk | hdr
    · exact List.mem_takeWhile_imp htk
    · exact h c hdr
  · intro h c hc
    have hsplit : l.takeWhile isRustWhitespace ++ l.dropWhile isRustWhitespace = l :=
      List.takeWhile_append_dropWhile isRustWhitespace l
    refine h c ?_
    rw [← hsplit]
    exact List.mem_append_right _ hc

theorem stripTrailingCR_nonblank (l : List Char) (h : (trimChars l).isEmpty = false) :
    (trimChars (stripTrailingCR l)).isEmpty = false := by
  unfold stripTrailingCR
  by_cases hlast : l.getLast? = some '\r'
  · rw [if_pos hlast]
    cases hx : (trimChars l.dropLast).isEmpty with
    | false => rfl
    | true =>
      exfalso
      have hall := (trimChars_isEmpty_iff _).mp hx
      have hlne : l ≠ [] := by rintro rfl; simp at hlast
      have hfull : ∀ c ∈ l, isRustWhitespace c = true := by
        intro c hc
        rw [← List.dropLast_append_getLast hlne] at hc
        rcases List.mem_append.mp hc with hd | hlast2
        · exact hall c hd
        · obtain rfl := List.mem_singleton.mp hlast2
          have hcr : l.getLast hlne = '\r' := by
            have h1 : '\r' ∈ l.getLast? := Option.mem_def.mpr hlast
            obtain ⟨hh, heq⟩ := List.mem_getLast?_eq_getLast h1
            exact heq.symm
          rw [hcr]
          decide
      have hcontra := (trimChars_isEmpty_iff l).mpr hfull
      rw [h] at hcontra
      exact absurd hcontra (by simp)
  · rw [if_neg hlast]
    exact h

theorem removeEmptyLines_props (s : List Char) :
    (∀ l ∈ linesOf (removeEmptyLinesChars s), (trimChars l).isEmpty = false)
    ∧ (removeEmptyLinesChars s).getLast? ≠ some '\n' := by
  have hL : ∀ l ∈ (linesOf s).filter (fun line => !(trimChars line).isEmpty),
      l ≠ [] ∧ '\n' ∉ l := by
    intro l hl
    obtain ⟨hmem, hpred⟩ := List.mem_filter.mp hl
    have hpred' : (trimChars l).isEmpty = false := by simpa using hpred
    exact ⟨ne_nil_of_trim_ne l hpred', no_nl_mem_linesOf s l hmem⟩
  constructor
  · intro l hl
    have hl2 : l ∈ linesOf (joinNL ((linesOf s).filter
        (fun line => !(trimChars line).isEmpty))) := hl
    obtain ⟨l0, hl0, hcase⟩ := linesOf_joinNL_mem _ hL l hl2
    have h0 : (trimChars l0).isEmpty = false := by
      have hp0 := (List.mem_filter.mp hl0).2
      simpa using hp0
    rcases hcase with rfl | rfl
    · exact h0
    · exact stripTrailingCR_nonblank l0 h0
  · show (joinNL ((linesOf s).filter (fun line => !(trimChars line).isEmpty))).getLast?
      ≠ some '\n'
    exact getLast?_joinNL_ne_nl _ hL

theorem removeEmptyLines_no_cr_props (s : List Char) (hcr : '\r' ∉ s) :
    removeEmptyLinesChars (removeEmptyLinesChars s) = removeEmptyLinesChars s
    ∧ (∀ l ∈ linesOf (removeEmptyLinesChars s), (trimChars l).isEmpty = false)
    ∧ (removeEmptyLinesChars s).getLast? ≠ some '\n' := by
  have hL : ∀ l ∈ (linesOf s).filter (fun line => !(trimChars line).isEmpty),
      l ≠ [] ∧ '\n' ∉ l ∧ '\r' ∉ l := by
    intro l hl
    obtain ⟨hmem, hpred⟩ := List.mem_filter.mp hl
    have hpred' : (trimChars l).isEmpty = false := by simpa using hpred
    refine ⟨ne_nil_of_trim_ne l hpred', no_nl_mem_linesOf s l hmem, ?_⟩
    intro hmem2
    exact hcr (mem_of_mem_linesOf s l hmem '\r' hmem2)
  have hlines : linesOf (removeEmptyLinesChars s)
      = (linesOf s).filter (fun line => !(trimChars line).isEmpty) := by
    simp only [removeEmptyLinesChars]
    exact linesOf_joinNL _ hL
  refine ⟨?_, ?_, ?_⟩
  · have houter : removeEmptyLinesChars (removeEmptyLinesChars s)
        = joinNL ((linesOf (removeEmptyLinesChars s)).filter
            (fun line => !(trimChars line).isEmpty)) := rfl
    rw [houter, hlines,
      List.filter_eq_self.mpr (fun l hl => (List.mem_filter.mp hl).2)]
    rfl
  · intro l hl
    rw [hlines] at hl
    have h2 := (List.mem_filter.mp hl).2
    simpa using h2
  · show (joinNL ((linesOf s).filter (fun line => !(trimChars line).isEmpty))).getLast?
      ≠ some '\n'
    exact getLast?_joinNL_ne_nl _ (fun l hl => ⟨(hL l hl).1, (hL l hl).2.1⟩)

/-- C10 counterexample: remove_empty_lines is not idempotent.  On the input
consisting of the characters a, carriage return, carriage return, newline, b,
the first pass keeps a line that still ends with a carriage return; the second
pass strips that carriage return, changing the string again. -/
theorem c10_counterexample :
    remove_empty_lines (remove_empty_lines "a\r\r\nb") ≠ remove_empty_lines "a\r\r\nb" := by
  decide

/-- C10 amended: remove_empty_lines is idempotent on every input without
carriage-return characters (the counterexample shows a carriage return just
before a line break defeats idempotence); and for every input whatsoever its
output contains no line whose trimmed content is empty and never ends with a
newline character, so slim's returned string has no trailing newline. -/
theorem c10_remove_empty_lines_amended (s : String) :
    ('\r' ∉ s.data →
      remove_empty_lines (remove_empty_lines s) = remove_empty_lines s)
    ∧ (∀ l ∈ linesOf (remove_empty_lines s).data, (trimChars l).isEmpty = false)
    ∧ (remove_empty_lines s).data.getLast? ≠ some '\n' := by
  obtain ⟨h2, h3⟩ := removeEmptyLines_props s.data
  refine ⟨?_, h2, h3⟩
  intro hcr
  exact congrArg String.mk (removeEmptyLines_no_cr_props s.data hcr).1

/-- C10 witness: the amended statement at a concrete carriage-return-free
input with a blank line, with the idempotence hypothesis discharged. -/
theorem c10_witness :
    remove_empty_lines (remove_empty_lines "a\n\nb") = remove_empty_lines "a\n\nb"
    ∧ (∀ l ∈ linesOf (remove_empty_lines "a\n\nb").data, (trimChars l).isEmpty = false)
    ∧ (remove_empty_lines "a\n\nb").data.getLast? ≠ some '\n' :=
  ⟨(c10_remove_empty_lines_amended "a\n\nb").1 (by decide),
   (c10_remove_empty_lines_amended "a\n\nb").2.1,
   (c10_remove_empty_lines_amended "a\n\nb").2.2⟩

end Slim
